import Mathlib

/-!
Verification of the revision-management behaviour of the django-revisions
repository: a shallow embedding of the revision data model, the
latest-per-bundle queryset selection of revisions/managers.py
(LatestManager.show_latest, LatestManager.get_query_set, trash_aware)
and of the model lifecycle operations (save, revert_to, get_revisions,
delete, delete_permanently) described by the specification.

A database is a list of revision rows.  Each row carries an optional
bundle id (the stable identity shared by all revisions of one logical
record; None before the first save), a version identifier vid (the
primary key of the revision table, hence unique across rows), content
fields (title, body) and a trash flag.
-/

namespace Revisions

/-- One revision row of the versioned table: bundle id (none until the
first save), version identifier (the table's primary key), the content
fields and the soft-delete flag. -/
structure Row where
  id : Option Nat
  vid : Nat
  title : String
  body : String
  is_trash : Bool
deriving DecidableEq

/-- The SQL subquery of LatestManager.show_latest:
MAX(vid) over all rows of the underlying table that share the bundle id. -/
def maxVid (table : List Row) (bid : Nat) : Nat :=
  ((table.filter (fun r => r.id == some bid)).map Row.vid).foldr max 0

/-- The raw WHERE predicate injected by LatestManager.show_latest:
a row satisfies vid = (SELECT MAX(vid) FROM table as sub WHERE
table.id = sub.id).  A row with a NULL bundle id never satisfies the
predicate, because the correlated subquery is empty there. -/
def isLatest (table : List Row) (r : Row) : Bool :=
  match r.id with
  | some b => r.vid == maxVid table b
  | none => false

/-- LatestManager.show_latest: restrict a queryset to the rows whose vid
is the maximum vid among all rows of the underlying table sharing the
same bundle id (the subquery ranges over the whole table, not over the
queryset being filtered). -/
def show_latest (table qs : List Row) : List Row :=
  qs.filter (isLatest table)

/-- LatestManager.get_query_set: the stack of caller frame names is
inspected; when the frame at index 3 is the save operation, the plain
unfiltered queryset is returned (so that the ORM can find the row it is
about to update in place), otherwise the latest-per-bundle selection is
applied. -/
def get_query_set (stack : List String) (db : List Row) : List Row :=
  if stack[3]? == some "save" then db else show_latest db db

/-- A manager, reduced to what trash_aware uses of it: the queryset it
produces from the underlying table. -/
structure Manager where
  queryset : List Row → List Row

/-- A manager after trash_aware has decorated it: the original queryset
plus the two derived views. -/
structure TrashAwareManager where
  queryset : List Row → List Row
  trash : List Row → List Row
  live : List Row → List Row

/-- The per-manager augmentation performed inside the trash_aware loop:
trash is the manager's queryset filtered to rows whose flag is set
(filter with is_trash true) and live is the manager's queryset filtered
to rows whose flag is unset (filter with is_trash false). -/
def augment (m : Manager) : TrashAwareManager :=
  { queryset := m.queryset
    trash := fun db => (m.queryset db).filter (fun r => r.is_trash)
    live := fun db => (m.queryset db).filter (fun r => !r.is_trash) }

/-- The trash_aware class decorator of revisions/managers.py: every
manager of the class receives the trash and live views. -/
def trash_aware (mgrs : List Manager) : List TrashAwareManager :=
  mgrs.map augment

/-- The plain default manager: its queryset is the whole table. -/
def mPlain : Manager :=
  { queryset := fun db => db }

/-- The LatestManager as a manager value: outside of the save path its
queryset is the latest-per-bundle selection over the whole table. -/
def mLatest : Manager :=
  { queryset := fun db => show_latest db db }

/-- The live view of the table under the plain manager: rows whose trash
flag is unset. -/
def live_view (db : List Row) : List Row :=
  db.filter (fun r => !r.is_trash)

/-- The trash view of the table under the plain manager: rows whose
trash flag is set. -/
def trash_view (db : List Row) : List Row :=
  db.filter (fun r => r.is_trash)

/-- Lookup of a bundle in a view, as objects.get(id=...) does: the first
row carrying the bundle id, none when the view has no such row (the
DoesNotExist case). -/
def getByBundle (view : List Row) (bid : Nat) : Option Row :=
  view.find? (fun r => r.id == some bid)

/-- The next version identifier handed out by the revision table: one
more than the largest vid present (vid is the autoincremented primary
key). -/
def nextVid (db : List Row) : Nat :=
  ((db.map Row.vid).foldr max 0) + 1

/-- A fresh bundle id for a first save: one more than the largest bundle
id present. -/
def freshBundleId (db : List Row) : Nat :=
  ((db.filterMap Row.id).foldr max 0) + 1

/-- A newly constructed, not yet saved record: no bundle id yet. -/
def newRecord (t b : String) : Row :=
  { id := none, vid := 0, title := t, body := b, is_trash := false }

/-- Modelled from the spec: the versioned model's save method, absent
from src (only revisions/managers.py and the tests are present).  A
record without a bundle id receives a fresh bundle id and a fresh vid
and is inserted; a record with a bundle id is, by default
(new_revision true), copied into a new row with a fresh, strictly larger
vid and the same bundle id; with new_revision false the single row with
the record's vid is overwritten in place and no row is added. -/
def save (db : List Row) (rec : Row) (new_revision : Bool) : List Row × Row :=
  match rec.id with
  | none =>
      let r := { rec with id := some (freshBundleId db), vid := nextVid db }
      (db ++ [r], r)
  | some _ =>
      if new_revision then
        let r := { rec with vid := nextVid db }
        (db ++ [r], r)
      else
        (db.map (fun x => if x.vid == rec.vid then rec else x), rec)

/-- Modelled from the spec: revert_to, absent from src.  Reverting to an
older revision creates a new revision whose content fields are copied
from the older revision, whose bundle id is the older revision's bundle
id, and whose vid is fresh (strictly above every vid in the table). -/
def revert_to (db : List Row) (older : Row) : List Row × Row :=
  let r := { older with vid := nextVid db }
  (db ++ [r], r)

/-- Ordering of rows by version identifier, used by get_revisions. -/
def vidLE (a b : Row) : Prop :=
  a.vid ≤ b.vid

instance : DecidableRel vidLE :=
  fun a b => Nat.decLe a.vid b.vid

instance : IsTotal Row vidLE :=
  ⟨fun a b => Nat.le_total a.vid b.vid⟩

instance : IsTrans Row vidLE :=
  ⟨fun _ _ _ hab hbc => Nat.le_trans hab hbc⟩

/-- Modelled from the spec: get_revisions, absent from src.  All rows
sharing the bundle id, ordered by version identifier. -/
def get_revisions (db : List Row) (bid : Nat) : List Row :=
  List.insertionSort vidLE (db.filter (fun r => r.id == some bid))

/-- The number of revisions a bundle has in the table. -/
def bundleCount (db : List Row) (bid : Nat) : Nat :=
  (db.filter (fun r => r.id == some bid)).length

/-- Modelled from the spec: the soft delete of a bundle, absent from
src.  Every revision of the bundle gets its trash flag set; no row is
removed. -/
def delete (db : List Row) (bid : Nat) : List Row :=
  db.map (fun r => if r.id == some bid then { r with is_trash := true } else r)

/-- Modelled from the spec: delete_permanently, absent from src.  Every
revision of the bundle is removed from the table. -/
def delete_permanently (db : List Row) (bid : Nat) : List Row :=
  db.filter (fun r => !(r.id == some bid))

/-- A concrete trashed old revision, used at concrete instances. -/
def tRow1 : Row :=
  { id := some 1, vid := 1, title := "", body := "", is_trash := true }

/-- A concrete live latest revision of the same bundle. -/
def tRow2 : Row :=
  { id := some 1, vid := 2, title := "", body := "", is_trash := false }

/-- A concrete revision of a second bundle. -/
def tRow3 : Row :=
  { id := some 2, vid := 3, title := "", body := "", is_trash := false }

/-- A concrete table holding both bundles. -/
def tDb : List Row :=
  [tRow1, tRow2, tRow3]

/-- The concrete old revision with its title edited in memory, the shape
of record passed to an in-place save. -/
def tRowEdited : Row :=
  { id := some 1, vid := 1, title := "edited", body := "", is_trash := true }

/-- The maximum of a nonempty list of naturals is one of its members. -/
lemma mem_foldr_max (l : List Nat) (h : l ≠ []) : l.foldr max 0 ∈ l := by
  induction l with
  | nil => exact absurd rfl h
  | cons x xs ih =>
    by_cases hxs : xs = []
    · subst hxs; simp
    · have hm := ih hxs
      simp only [List.foldr_cons]
      rcases Nat.le_total x (xs.foldr max 0) with hle | hle
      · rw [Nat.max_eq_right hle]
        exact List.mem_cons_of_mem _ hm
      · rw [Nat.max_eq_left hle]
        exact List.mem_cons_self _ _

/-- Every member of a list of naturals is bounded by its folded maximum. -/
lemma le_foldr_max {l : List Nat} {x : Nat} (hx : x ∈ l) : x ≤ l.foldr max 0 := by
  induction l with
  | nil => cases hx
  | cons y ys ih =>
    rcases List.mem_cons.mp hx with h | h
    · subst h; exact Nat.le_max_left _ _
    · exact Nat.le_trans (ih h) (Nat.le_max_right _ _)

/-- Every row of a bundle has its vid bounded by the bundle's maximum vid. -/
lemma vid_le_maxVid {db : List Row} {r : Row} {bid : Nat}
    (hr : r ∈ db) (hid : r.id = some bid) : r.vid ≤ maxVid db bid := by
  apply le_foldr_max
  apply List.mem_map_of_mem
  exact List.mem_filter.mpr ⟨hr, by simp [hid]⟩

/-- When a bundle id occurs in the table, some row of the bundle attains
the bundle's maximum vid. -/
lemma maxVid_attained {db : List Row} {bid : Nat}
    (h : ∃ r ∈ db, r.id = some bid) :
    ∃ m ∈ db, m.id = some bid ∧ m.vid = maxVid db bid := by
  obtain ⟨r, hr, hid⟩ := h
  have hrf : r ∈ db.filter (fun x => x.id == some bid) :=
    List.mem_filter.mpr ⟨hr, by simp [hid]⟩
  have hne : (db.filter (fun x => x.id == some bid)).map Row.vid ≠ [] := by
    intro hnil
    rw [List.map_eq_nil_iff] at hnil
    rw [hnil] at hrf
    cases hrf
  have hmem := mem_foldr_max _ hne
  rw [List.mem_map] at hmem
  obtain ⟨m, hmf, hmv⟩ := hmem
  have hm := List.mem_filter.mp hmf
  refine ⟨m, hm.1, ?_, ?_⟩
  · have := hm.2
    simpa using this
  · exact hmv

/-- The show_latest predicate holds exactly on rows carrying a bundle id
and attaining that bundle's maximum vid in the table. -/
lemma isLatest_iff {table : List Row} {r : Row} :
    isLatest table r = true ↔ ∃ b, r.id = some b ∧ r.vid = maxVid table b := by
  unfold isLatest
  cases hid : r.id with
  | none => simp
  | some b => simp

/-- Membership in a show_latest queryset. -/
lemma mem_show_latest {table qs : List Row} {r : Row} :
    r ∈ show_latest table qs ↔
      r ∈ qs ∧ ∃ b, r.id = some b ∧ r.vid = maxVid table b := by
  unfold show_latest
  rw [List.mem_filter, isLatest_iff]

/-- C10: show_latest only restricts its input queryset: every returned
row is a row of the queryset, and applying show_latest twice equals
applying it once. -/
theorem show_latest_subset_and_idempotent (table qs : List Row) :
    (∀ r ∈ show_latest table qs, r ∈ qs) ∧
      show_latest table (show_latest table qs) = show_latest table qs := by
  constructor
  · intro r hr
    exact (List.mem_filter.mp hr).1
  · unfold show_latest
    rw [List.filter_filter]
    congr 1
    funext r
    exact Bool.and_self _

theorem show_latest_subset_and_idempotent_witness :
    (∀ r ∈ show_latest tDb tDb, r ∈ tDb) ∧
      show_latest tDb (show_latest tDb tDb) = show_latest tDb tDb ∧
      tRow2 ∈ tDb :=
  ⟨(show_latest_subset_and_idempotent tDb tDb).1,
   (show_latest_subset_and_idempotent tDb tDb).2,
   (show_latest_subset_and_idempotent tDb tDb).1 tRow2 (by decide)⟩

/-- C2: when queryset construction is reached with the save frame at
stack index 3 (the reentrant save path), the unfiltered queryset is
returned; in every other context the latest-per-bundle filtered queryset
is returned. -/
theorem get_query_set_save_bypass (stack : List String) (db : List Row) :
    (stack[3]? = some "save" → get_query_set stack db = db) ∧
      (stack[3]? ≠ some "save" → get_query_set stack db = show_latest db db) := by
  unfold get_query_set
  constructor
  · intro h
    simp [h]
  · intro h
    simp only [beq_iff_eq]
    rw [if_neg h]

theorem get_query_set_save_bypass_witness :
    get_query_set ["get_query_set", "filter", "all", "save"] tDb = tDb ∧
      get_query_set ["get_query_set", "filter", "all", "get"] tDb =
        show_latest tDb tDb :=
  ⟨(get_query_set_save_bypass ["get_query_set", "filter", "all", "save"] tDb).1
     (by decide),
   (get_query_set_save_bypass ["get_query_set", "filter", "all", "get"] tDb).2
     (by decide)⟩

/-- C1: when vids are unique (vid is the primary key) and a bundle id
occurs in the table, the latest view returns exactly one row for that
bundle id, namely the row attaining the maximum vid among rows sharing
that bundle id. -/
theorem latest_unique_max_per_bundle (db : List Row) (bid : Nat)
    (hnodup : (db.map Row.vid).Nodup)
    (hocc : ∃ r ∈ db, r.id = some bid) :
    ∃ m, (m ∈ show_latest db db ∧ m.id = some bid ∧ m.vid = maxVid db bid) ∧
      ∀ r, r ∈ show_latest db db → r.id = some bid → r = m := by
  obtain ⟨m, hm, hmid, hmv⟩ := maxVid_attained hocc
  refine ⟨m, ⟨?_, hmid, hmv⟩, ?_⟩
  · exact mem_show_latest.mpr ⟨hm, bid, hmid, hmv⟩
  · intro r hr hrid
    obtain ⟨hrdb, b, hb, hbv⟩ := mem_show_latest.mp hr
    have hbbid : b = bid := by
      rw [hrid] at hb
      exact (Option.some_inj.mp hb).symm
    subst hbbid
    have hvv : r.vid = m.vid := by rw [hbv, hmv]
    exact List.inj_on_of_nodup_map hnodup hrdb hm hvv

theorem latest_unique_max_per_bundle_witness :
    ((tDb.map Row.vid).Nodup ∧ (∃ r ∈ tDb, r.id = some 1)) ∧
      (∃ m, (m ∈ show_latest tDb tDb ∧ m.id = some 1 ∧ m.vid = maxVid tDb 1) ∧
        ∀ r, r ∈ show_latest tDb tDb → r.id = some 1 → r = m) :=
  ⟨⟨by decide, by decide⟩,
   latest_unique_max_per_bundle tDb 1 (by decide) (by decide)⟩

/-- Filtering after a map whose function preserves the predicate on the
mapped list keeps the number of selected elements. -/
lemma length_filter_map_congr {f : Row → Row} {p : Row → Bool} :
    ∀ l : List Row, (∀ x ∈ l, p (f x) = p x) →
      ((l.map f).filter p).length = (l.filter p).length := by
  intro l h
  induction l with
  | nil => rfl
  | cons x xs ih =>
    have hx := h x (List.mem_cons_self x xs)
    have ihh := ih (fun y hy => h y (List.mem_cons_of_mem _ hy))
    simp only [List.map_cons, List.filter_cons, hx]
    cases hpx : p x <;> simp [hpx, ihh]

/-- C3: saving an existing record with the default option produces a new
row with a strictly greater version identifier and the same bundle id,
and the total number of rows grows. -/
theorem save_new_revision_grows (db : List Row) (rec : Row) (bid : Nat)
    (hmem : rec ∈ db) (hbid : rec.id = some bid) :
    rec.vid < (save db rec true).2.vid ∧
      (save db rec true).2.id = rec.id ∧
      db.length < (save db rec true).1.length := by
  have hle : rec.vid ≤ (db.map Row.vid).foldr max 0 :=
    le_foldr_max (List.mem_map_of_mem Row.vid hmem)
  refine ⟨?_, ?_, ?_⟩
  · simp only [save, hbid, nextVid]
    exact Nat.lt_succ_of_le hle
  · simp [save, hbid]
  · simp [save, hbid]

theorem save_new_revision_grows_witness :
    (tRow1 ∈ tDb ∧ tRow1.id = some 1) ∧
      (tRow1.vid < (save tDb tRow1 true).2.vid ∧
        (save tDb tRow1 true).2.id = tRow1.id ∧
        tDb.length < (save tDb tRow1 true).1.length) :=
  ⟨⟨by decide, by decide⟩,
   save_new_revision_grows tDb tRow1 1 (by decide) (by decide)⟩

/-- C4: saving with the in-place option creates no new row, leaves every
bundle's revision count unchanged, places the mutated record at the spot
of the single targeted row, and leaves every other row of the table
unchanged. -/
theorem save_in_place_frame (db : List Row) (rec old : Row) (bid : Nat)
    (hnodup : (db.map Row.vid).Nodup) (hold : old ∈ db)
    (hbid : rec.id = some bid) (hid : old.id = rec.id)
    (hvid : old.vid = rec.vid) :
    (save db rec false).1.length = db.length ∧
      (∀ b, bundleCount (save db rec false).1 b = bundleCount db b) ∧
      rec ∈ (save db rec false).1 ∧
      (∀ r ∈ db, r.vid ≠ rec.vid → r ∈ (save db rec false).1) := by
  have hsave : (save db rec false).1 =
      db.map (fun x => if x.vid == rec.vid then rec else x) := by
    simp [save, hbid]
  refine ⟨?_, ?_, ?_, ?_⟩
  · rw [hsave]
    simp
  · intro b
    unfold bundleCount
    rw [hsave]
    apply length_filter_map_congr
    intro x hx
    by_cases hxv : x.vid = rec.vid
    · have hxold : x = old :=
        List.inj_on_of_nodup_map hnodup hx hold (by rw [hxv, hvid])
      have hif : (if x.vid == rec.vid then rec else x) = rec := by
        simp [hxv]
      rw [hif, hxold, hid]
    · have hif : (if x.vid == rec.vid then rec else x) = x := by
        simp [hxv]
      rw [hif]
  · rw [hsave]
    refine List.mem_map.mpr ⟨old, hold, ?_⟩
    simp [hvid]
  · intro r hr hrv
    rw [hsave]
    refine List.mem_map.mpr ⟨r, hr, ?_⟩
    simp [hrv]

theorem save_in_place_frame_witness :
    ((tDb.map Row.vid).Nodup ∧ tRow1 ∈ tDb ∧ tRowEdited.id = some 1 ∧
        tRow1.id = tRowEdited.id ∧ tRow1.vid = tRowEdited.vid) ∧
      ((save tDb tRowEdited false).1.length = tDb.length ∧
        (∀ b, bundleCount (save tDb tRowEdited false).1 b = bundleCount tDb b) ∧
        tRowEdited ∈ (save tDb tRowEdited false).1 ∧
        (∀ r ∈ tDb, r.vid ≠ tRowEdited.vid →
          r ∈ (save tDb tRowEdited false).1)) :=
  ⟨⟨by decide, by decide, by decide, by decide, by decide⟩,
   save_in_place_frame tDb tRowEdited tRow1 1 (by decide) (by decide)
     (by decide) (by decide) (by decide)⟩

/-- C5: reverting to an older revision creates a new revision whose
content fields equal those of the older revision, whose bundle id is
unchanged, whose version identifier strictly exceeds every prior version
identifier of the bundle, and the bundle's revision count grows by
one. -/
theorem revert_to_fresh_revision (db : List Row) (older : Row) (bid : Nat)
    (_hmem : older ∈ db) (hid : older.id = some bid) :
    (revert_to db older).2.title = older.title ∧
      (revert_to db older).2.body = older.body ∧
      (revert_to db older).2.id = older.id ∧
      (∀ r ∈ db, r.id = some bid → r.vid < (revert_to db older).2.vid) ∧
      bundleCount (revert_to db older).1 bid = bundleCount db bid + 1 := by
  refine ⟨rfl, rfl, rfl, ?_, ?_⟩
  · intro r hr _
    have h2 : r.vid ≤ (db.map Row.vid).foldr max 0 :=
      le_foldr_max (List.mem_map_of_mem Row.vid hr)
    simp only [revert_to, nextVid]
    exact Nat.lt_succ_of_le h2
  · simp only [revert_to, bundleCount, List.filter_append]
    simp [hid]

theorem revert_to_fresh_revision_witness :
    (tRow1 ∈ tDb ∧ tRow1.id = some 1) ∧
      ((revert_to tDb tRow1).2.title = tRow1.title ∧
        (revert_to tDb tRow1).2.body = tRow1.body ∧
        (revert_to tDb tRow1).2.id = tRow1.id ∧
        (∀ r ∈ tDb, r.id = some 1 → r.vid < (revert_to tDb tRow1).2.vid) ∧
        bundleCount (revert_to tDb tRow1).1 1 = bundleCount tDb 1 + 1) :=
  ⟨⟨by decide, by decide⟩,
   revert_to_fresh_revision tDb tRow1 1 (by decide) (by decide)⟩

/-- C6: soft delete sets the trash flag on every revision of the bundle,
after which the bundle is not found in the live view while a trashed
copy of each revision is in the trash view; permanent deletion removes
the bundle's rows so lookup through the unfiltered, live and trash views
all report not found. -/
theorem delete_soft_and_permanent (db : List Row) (bid : Nat) :
    (∀ r ∈ delete db bid, r.id = some bid → r.is_trash = true) ∧
      getByBundle (live_view (delete db bid)) bid = none ∧
      (∀ r ∈ db, r.id = some bid →
        { r with is_trash := true } ∈ trash_view (delete db bid)) ∧
      getByBundle (delete_permanently db bid) bid = none ∧
      getByBundle (live_view (delete_permanently db bid)) bid = none ∧
      getByBundle (trash_view (delete_permanently db bid)) bid = none := by
  have htrash : ∀ r ∈ delete db bid, r.id = some bid → r.is_trash = true := by
    intro r hr hrid
    obtain ⟨x, hx, hfx⟩ := List.mem_map.mp hr
    by_cases hxid : x.id = some bid
    · have hrx : r = { x with is_trash := true } := by
        rw [← hfx]; simp [hxid]
      rw [hrx]
    · have hrx : r = x := by
        rw [← hfx]; simp [hxid]
      rw [hrx] at hrid
      exact absurd hrid hxid
  refine ⟨htrash, ?_, ?_, ?_, ?_, ?_⟩
  · rw [getByBundle, List.find?_eq_none]
    intro r hr hcontra
    have hrid : r.id = some bid := by simpa using hcontra
    have hlive := (List.mem_filter.mp hr).2
    have htr := htrash r (List.mem_filter.mp hr).1 hrid
    rw [htr] at hlive
    simp at hlive
  · intro r hr hrid
    refine List.mem_filter.mpr ⟨List.mem_map.mpr ⟨r, hr, ?_⟩, rfl⟩
    simp [hrid]
  · rw [getByBundle, List.find?_eq_none]
    intro r hr hcontra
    have h2 := (List.mem_filter.mp hr).2
    rw [hcontra] at h2
    simp at h2
  · rw [getByBundle, List.find?_eq_none]
    intro r hr hcontra
    have hr1 := (List.mem_filter.mp hr).1
    have h2 := (List.mem_filter.mp hr1).2
    rw [hcontra] at h2
    simp at h2
  · rw [getByBundle, List.find?_eq_none]
    intro r hr hcontra
    have hr1 := (List.mem_filter.mp hr).1
    have h2 := (List.mem_filter.mp hr1).2
    rw [hcontra] at h2
    simp at h2

theorem delete_soft_and_permanent_witness :
    ((∀ r ∈ delete tDb 1, r.id = some 1 → r.is_trash = true) ∧
      getByBundle (live_view (delete tDb 1)) 1 = none ∧
      (∀ r ∈ tDb, r.id = some 1 →
        { r with is_trash := true } ∈ trash_view (delete tDb 1)) ∧
      getByBundle (delete_permanently tDb 1) 1 = none ∧
      getByBundle (live_view (delete_permanently tDb 1)) 1 = none ∧
      getByBundle (trash_view (delete_permanently tDb 1)) 1 = none) ∧
      { tRow2 with is_trash := true } ∈ trash_view (delete tDb 1) :=
  ⟨delete_soft_and_permanent tDb 1,
   (delete_soft_and_permanent tDb 1).2.2.1 tRow2 (by decide) (by decide)⟩

/-- C7 as amended: trash_aware attaches to each of the managers the two
derived views, where the trash view holds precisely the rows of that
manager's queryset whose flag is set and the live view precisely the
rows of that manager's queryset whose flag is unset. -/
theorem trash_aware_views (mgrs : List Manager) (m : Manager)
    (db : List Row) (r : Row) (hm : m ∈ mgrs) :
    augment m ∈ trash_aware mgrs ∧
      (r ∈ (augment m).trash db ↔ r ∈ m.queryset db ∧ r.is_trash = true) ∧
      (r ∈ (augment m).live db ↔ r ∈ m.queryset db ∧ r.is_trash = false) := by
  refine ⟨List.mem_map_of_mem augment hm, ?_, ?_⟩
  · unfold augment
    simp [List.mem_filter]
  · unfold augment
    simp [List.mem_filter]

theorem trash_aware_views_witness :
    mLatest ∈ [mLatest] ∧
      (augment mLatest ∈ trash_aware [mLatest] ∧
        (tRow2 ∈ (augment mLatest).trash tDb ↔
          tRow2 ∈ mLatest.queryset tDb ∧ tRow2.is_trash = true) ∧
        (tRow2 ∈ (augment mLatest).live tDb ↔
          tRow2 ∈ mLatest.queryset tDb ∧ tRow2.is_trash = false)) :=
  ⟨by simp, trash_aware_views [mLatest] mLatest tDb tRow2 (by simp)⟩

/-- C7, as stated, is false on the code: under the latest-revision
manager the attached trash view is the latest-per-bundle queryset
filtered by the flag, so a trashed old revision (flag set) is absent
from the trash view. -/
theorem trash_aware_precisely_counterexample :
    trash_aware [mLatest] = [augment mLatest] ∧
      tRow1 ∈ tDb ∧ tRow1.is_trash = true ∧
      tRow1 ∉ (augment mLatest).trash tDb :=
  ⟨rfl, by decide, rfl, by decide⟩

/-- C8: a newly constructed record has no bundle id; the first save
assigns one; a save of a record that already has a bundle id never
changes it, whatever the new_revision option is. -/
theorem bundle_id_first_save (t b : String) (db db2 : List Row)
    (rec : Row) (nr1 nr2 : Bool) (h : rec.id.isSome = true) :
    (newRecord t b).id = none ∧
      ((save db (newRecord t b) nr1).2.id).isSome = true ∧
      (save db2 rec nr2).2.id = rec.id := by
  refine ⟨rfl, ?_, ?_⟩
  · simp [save, newRecord]
  · obtain ⟨x, hx⟩ := Option.isSome_iff_exists.mp h
    cases nr2 with
    | true => simp [save, hx]
    | false => simp [save, hx]

theorem bundle_id_first_save_witness :
    tRow1.id.isSome = true ∧
      ((newRecord "t" "b").id = none ∧
        ((save tDb (newRecord "t" "b") true).2.id).isSome = true ∧
        (save tDb tRow1 true).2.id = tRow1.id) :=
  ⟨by decide, bundle_id_first_save "t" "b" tDb tDb tRow1 true true (by decide)⟩

/-- C9: get_revisions returns exactly the rows sharing the bundle id,
ordered by version identifier. -/
theorem get_revisions_complete_ordered (db : List Row) (bid : Nat) :
    (∀ r, r ∈ get_revisions db bid ↔ r ∈ db ∧ r.id = some bid) ∧
      (get_revisions db bid).Sorted vidLE := by
  constructor
  · intro r
    unfold get_revisions
    rw [(List.perm_insertionSort vidLE _).mem_iff, List.mem_filter]
    simp
  · exact List.sorted_insertionSort vidLE _

theorem get_revisions_complete_ordered_witness :
    ((∀ r, r ∈ get_revisions tDb 1 ↔ r ∈ tDb ∧ r.id = some 1) ∧
      (get_revisions tDb 1).Sorted vidLE) ∧
      tRow1 ∈ get_revisions tDb 1 :=
  ⟨get_revisions_complete_ordered tDb 1,
   ((get_revisions_complete_ordered tDb 1).1 tRow1).mpr ⟨by decide, by decide⟩⟩

end Revisions
